import Mathlib

/-!
Verification of the multi-criteria contraction-hierarchy builder
(`src/multi_lib/contractor.cpp`).

The C++ code is shallowly embedded: costs and configs are lists of
rationals (the C++ `double` arithmetic is modelled exactly over `ℚ`),
fallible operations return `Except`/`Option`, and the external
collaborators (`NormalDijkstra`, `ContractionLp`, the edge registry,
the node set) appear as explicit oracle parameters gathered in an `Env`
structure.  Statistics printing and the max-value counters
(`lpMax`/`constMax`) are elided; the classification events fed to
`StatisticsCollector::countShortcut` are kept as a list of `CountType`
values so that shortcut classification is observable.
-/

namespace MCC

/-- Dimension-generic cost vector: the C++ `Cost` with `Cost::dim` entries. -/
abbrev Cost := List ℚ

/-- The C++ `Config` weight vector. -/
abbrev Config := List ℚ

/-- Scalar product of a config and a cost (`Config * Cost` in C++). -/
def dot (conf c : List ℚ) : ℚ := (List.zipWith (· * ·) conf c).sum

/-- Componentwise sum (`Cost::operator+`). -/
def addCost (a b : Cost) : Cost := List.zipWith (· + ·) a b

/-- Componentwise difference (`Cost::operator-`, used by `addConstraint`). -/
def subCost (a b : Cost) : Cost := List.zipWith (· - ·) a b

/-- Modelled from the spec: the numeric tolerance `COST_ACCURACY` is defined
in a header outside `src/`; the spec fixes it to `1e-6`. -/
def costAccuracy : ℚ := 1 / 1000000

/-- Modelled from the spec: `Cost::operator==` (used by `checkShortestPath`)
is defined outside `src/`; per the spec, `isShortest` is "exact equality
on the scalarized value", so two costs are compared by their scalar
product with the probing config. -/
def costEq (conf : Config) (a b : Cost) : Bool := dot conf a == dot conf b

/-- The C++ `Edge`: source/destination node ids, its own id, a cost, and
(for shortcuts) the pair of child edge ids.  Node ids and node positions
are conflated into `ℕ` in this model. -/
structure Edge where
  sourceId : ℕ
  destId : ℕ
  id : ℕ
  cost : Cost
  children : Option (ℕ × ℕ)
deriving DecidableEq

/-- The C++ `HalfEdge`: the far endpoint `end`, the originating node
`begin`, the edge id, and the edge's cost. -/
structure HalfEdge where
  endPos : ℕ
  beginPos : ℕ
  id : ℕ
  cost : Cost
deriving DecidableEq

/-- The C++ `RouteWithCount` returned by `NormalDijkstra::findBestRoute`. -/
structure RouteWithCount where
  edges : List ℕ
  costs : Cost
  pathCount : ℕ
deriving DecidableEq

instance : Inhabited RouteWithCount := ⟨⟨[], [], 0⟩⟩

/-- `Contractor::createShortcut` (contractor.cpp:356-365): throws
`invalid_argument` when `e1.getDestId() ≠ e2.getSourceId()`, otherwise
builds the shortcut edge with children `(e1.id, e2.id)` and cost
`e1.cost + e2.cost`.  The new edge's own id is assigned later by the
registry; it is `0` here. -/
def createShortcut (e1 e2 : Edge) : Except String Edge :=
  if e1.destId ≠ e2.sourceId then
    .error "Edges are not connected"
  else
    .ok { sourceId := e1.sourceId, destId := e2.destId, id := 0,
          cost := addCost e1.cost e2.cost, children := some (e1.id, e2.id) }

/-- Loop body of `ContractingThread::isDominated` (contractor.cpp:155-169):
walks the components carrying the `someDifferent` flag; a strictly larger
component returns `false` immediately (`dominated = false`). -/
def isDominatedGo : List ℚ → List ℚ → Bool → Bool
  | c :: cs, s :: ss, someDiff =>
      if c > s then false
      else isDominatedGo cs ss (someDiff || decide (c ≠ s))
  | _, _, someDiff => someDiff

/-- `ContractingThread::isDominated(costs)`: the member `shortcutCost` is
passed explicitly. -/
def isDominated (shortcutCost costs : Cost) : Bool :=
  isDominatedGo costs shortcutCost false

/-- `checkShortestPath` (contractor.cpp:88-100), with
`NormalDijkstra::findBestRoute` as an oracle parameter. -/
def checkShortestPath (find : ℕ → ℕ → Config → Option RouteWithCount)
    (startEdge destEdge : HalfEdge) (conf : Config) :
    Bool × Option RouteWithCount :=
  match find startEdge.endPos destEdge.endPos conf with
  | none => (false, none)
  | some route =>
      (costEq conf route.costs (addCost startEdge.cost destEdge.cost), some route)

/-- Classification events fed to `StatisticsCollector::countShortcut`. -/
inductive CountType where
  | shortestPath
  | repeatingConfig
  | unknownReason
deriving DecidableEq

/-- External collaborators of `ContractingThread`, gathered as oracles:
`find` is `NormalDijkstra::findBestRoute`, `getEdge` is `Edge::getEdge`
on the process-wide registry (node ids and positions are conflated, so
`Edge::destPos` is the stored `destId`), `lp` answers one
`ContractionLp` round (`addConstraint` rows in, `solve`/`variableValues`
out, `none` on solver failure), and `set` is the level's selected
independent set. -/
structure Env where
  find : ℕ → ℕ → Config → Option RouteWithCount
  getEdge : ℕ → Edge
  lp : List (List ℚ) → Option Config
  set : List ℕ

instance {α : Type} [DecidableEq α] : DecidableEq (Except String α) := fun a b =>
  match a, b with
  | .error x, .error y =>
    if h : x = y then isTrue (by rw [h]) else isFalse (fun hc => h (by cases hc; rfl))
  | .ok x, .ok y =>
    if h : x = y then isTrue (by rw [h]) else isFalse (fun hc => h (by cases hc; rfl))
  | .error _, .ok _ => isFalse (fun hc => by cases hc)
  | .ok _, .error _ => isFalse (fun hc => by cases hc)

/-- Mutable members of `ContractingThread` (contractor.cpp:102-117).
`stats` records the `countShortcut` events; `shortcuts` holds the
produced edges (a `createShortcut` failure, which aborts the worker in
C++, is kept as the stored `Except` error). -/
structure CtState where
  config : Config
  inE : HalfEdge
  outE : HalfEdge
  lpCount : ℕ
  shortcuts : List (Except String Edge)
  stats : List CountType
  shortcutCost : Cost
  currentCost : Cost
  constraints : List Cost
  route : RouteWithCount
deriving DecidableEq

/-- `ContractingThread::storeShortcut` (contractor.cpp:189-194). -/
def storeShortcut (env : Env) (t : CountType) (st : CtState) : CtState :=
  { st with
    stats := st.stats ++ [t],
    shortcuts := st.shortcuts ++
      [createShortcut (env.getEdge st.inE.id) (env.getEdge st.outE.id)] }

/-- `ContractingThread::testConfig` (contractor.cpp:196-225). -/
def testConfig (env : Env) (st : CtState) (c : Config) : Bool × CtState :=
  match checkShortestPath env.find st.inE st.outE c with
  | (_, none) => (true, st)
  | (isShortest, some foundRoute) =>
    if foundRoute.edges.isEmpty then (true, st)
    else
      let st := { st with
        currentCost := foundRoute.costs,
        route := foundRoute,
        constraints := st.constraints ++ [foundRoute.costs] }
      if isShortest then
        if foundRoute.pathCount == 1
            || foundRoute.edges.any (fun id => env.set.contains (env.getEdge id).destId)
        then (true, storeShortcut env .shortestPath st)
        else (true, st)
      else if isDominated st.shortcutCost st.currentCost then (true, st)
      else (false, st)

/-- Lexicographic strict comparison of cost vectors, the C++
`a.values < b.values` used to sort `constraints` and to order shortcut
costs. -/
def costLexLt : List ℚ → List ℚ → Bool
  | a :: as, b :: bs =>
      if a < b then true
      else if a > b then false
      else costLexLt as bs
  | _, _ => false

/-- Stable insertion step of the constraint sort. -/
def insertCost (x : Cost) : List Cost → List Cost
  | [] => [x]
  | y :: ys => if costLexLt y x then y :: insertCost x ys else x :: y :: ys

/-- `std::sort` of the constraints by lexicographic `<` on the values,
modelled as insertion sort (the sorted result is unique because the
comparison ties only on equal vectors, which `unique` collapses). -/
def sortCosts : List Cost → List Cost
  | [] => []
  | x :: xs => insertCost x (sortCosts xs)

/-- `std::unique` with binary predicate `eq`: de-facto semantics, each
element is compared with the last *kept* element. -/
def uniqueGo (eq : α → α → Bool) (kept : α) : List α → List α
  | [] => []
  | y :: ys => if eq kept y then uniqueGo eq kept ys else y :: uniqueGo eq y ys

/-- `std::unique` over a whole list. -/
def uniqueBy (eq : α → α → Bool) : List α → List α
  | [] => []
  | x :: xs => x :: uniqueGo eq x xs

/-- `ContractingThread::dedupConstraints` (contractor.cpp:227-242): sort
by lexicographic `<`, then `unique` under exact componentwise equality. -/
def dedupConstraints (st : CtState) : CtState :=
  { st with constraints := uniqueBy (· == ·) (sortCosts st.constraints) }

/-- The constraint rows handed to the LP: `c - shortcutCost` for each
entry of `constraints` (`ContractingThread::addConstraint`,
contractor.cpp:171-175, called in a loop at contractor.cpp:306-308). -/
def lpRows (st : CtState) : List (List ℚ) :=
  st.constraints.map (fun c => subCost c st.shortcutCost)

/-- The inner `while (true)` LP loop of `ContractingThread::operator()`
(contractor.cpp:299-328), with explicit fuel; `none` means the fuel ran
out before the loop exited. -/
def mainLoop (env : Env) : ℕ → CtState → Option CtState
  | 0, _ => none
  | fuel + 1, st =>
    match testConfig env st st.config with
    | (true, st') => some st'
    | (false, st') =>
      let st2 := dedupConstraints st'
      let st3 := { st2 with lpCount := st2.lpCount + 1 }
      match env.lp (lpRows st3) with
      | none => some st3
      | some values =>
        if values == st3.config then
          some (storeShortcut env
            (if dot st3.shortcutCost st3.config - costAccuracy ≤
                dot st3.currentCost st3.config
             then CountType.repeatingConfig else CountType.unknownReason) st3)
        else mainLoop env fuel { st3 with config := values }

/-- The cold-start axis probes (contractor.cpp:277-291): `testConfig` on
each unit vector, stopping at the first `true`. -/
def axisProbe (env : Env) (st : CtState) : List Config → Bool × CtState
  | [] => (false, st)
  | c :: cs =>
    match testConfig env st c with
    | (true, st') => (true, st')
    | (false, st') => axisProbe env st' cs

/-- The uniform config `(1/D, …, 1/D)`. -/
def uniformConfig (dim : ℕ) : Config := List.replicate dim (1 / (dim : ℚ))

/-- The unit vectors probed on a cold start. -/
def axisConfigs (dim : ℕ) : List Config :=
  (List.range dim).map (fun i => (List.replicate dim (0 : ℚ)).set i 1)

/-- One pair and one shortcut-carrying edge pair of work. -/
structure EdgePair where
  inE : HalfEdge
  outE : HalfEdge
deriving DecidableEq

/-- Processing of one `EdgePair` inside `ContractingThread::operator()`
(contractor.cpp:252-329): warm-start detection, invariant checks
(`throw` becomes `Except.error`), cold-start axis probes, and the LP
loop.  The dead `for (auto c : constraints) { if (isDominated(c))
continue; }` loop (contractor.cpp:293-296) has no effect and is omitted. -/
def processPair (env : Env) (dim fuel : ℕ) (st : CtState) (pair : EdgePair) :
    Except String CtState :=
  let warm := pair.inE.endPos == st.inE.endPos && pair.outE.endPos == st.outE.endPos
  let st := if warm then st else { st with constraints := [] }
  let st := { st with inE := pair.inE, outE := pair.outE }
  if pair.inE.beginPos ≠ pair.outE.beginPos then
    .error "In out pair does not belong together"
  else if (env.getEdge pair.inE.id).destId ≠ (env.getEdge pair.outE.id).sourceId then
    .error "In out edges do not belong together"
  else
    let st := { st with config := uniformConfig dim,
                        shortcutCost := addCost pair.inE.cost pair.outE.cost }
    let probed := if warm then (false, st) else axisProbe env st (axisConfigs dim)
    if probed.1 then .ok probed.2
    else
      let st := { probed.2 with lpCount := 0 }
      match mainLoop env fuel st with
      | none => .error "fuel exhausted"
      | some st => .ok st

/-- The worker's message loop over its stream of pairs (the
`MultiQueue` delivery and batching are elided: the worker sees a
sequence of pairs either way). -/
def runWorker (env : Env) (dim fuel : ℕ) : List EdgePair → CtState → Except String CtState
  | [], st => .ok st
  | p :: ps, st =>
    match processPair env dim fuel st p with
    | .error e => .error e
    | .ok st' => runWorker env dim fuel ps st'

/-- Initial state of a `ContractingThread` (contractor.cpp:120-131):
uniform config, empty buffers; value-initialized `HalfEdge` members. -/
def initState (dim : ℕ) : CtState :=
  { config := uniformConfig dim, inE := ⟨0, 0, 0, []⟩, outE := ⟨0, 0, 0, []⟩,
    lpCount := 0, shortcuts := [], stats := [], shortcutCost := [],
    currentCost := [], constraints := [], route := default }

/-! ### The level contractor: graphs, independent sets, reduction -/

/-- The graph seen by `Contractor`: node positions `0 .. nodeCount-1` and
directed edges as `(source, dest)` position pairs.
`getIngoingEdgesOf p` yields half-edges whose `end` is the source;
`getOutgoingEdgesOf p` yields half-edges whose `end` is the dest. -/
structure Graph where
  nodeCount : ℕ
  edges : List (ℕ × ℕ)

/-- `end` fields of `g.getIngoingEdgesOf p`. -/
def inNeighbors (g : Graph) (p : ℕ) : List ℕ :=
  (g.edges.filter (fun e => e.2 == p)).map Prod.fst

/-- `end` fields of `g.getOutgoingEdgesOf p`. -/
def outNeighbors (g : Graph) (p : ℕ) : List ℕ :=
  (g.edges.filter (fun e => e.1 == p)).map Prod.snd

/-- The degree-product score `|in-edges| · |out-edges|`
(contractor.cpp:382-384 and 415-417). -/
def score (g : Graph) (p : ℕ) : ℕ :=
  (inNeighbors g p).length * (outNeighbors g p).length

/-- `operator<=` on `std::pair<size_t, NodePos>`: lexicographic. -/
def pairLe (a b : ℕ × ℕ) : Prop := a.1 < b.1 ∨ (a.1 = b.1 ∧ a.2 ≤ b.2)

instance : DecidableRel pairLe := fun a b => by unfold pairLe; infer_instance

instance : IsTotal (ℕ × ℕ) pairLe := ⟨fun a b => by unfold pairLe; omega⟩

instance : IsTrans (ℕ × ℕ) pairLe := ⟨fun a b c hab hbc => by
  unfold pairLe at hab hbc ⊢; omega⟩

/-- `std::sort` / `std::nth_element` order on `(score, node)` pairs. -/
def sortPairs (l : List (ℕ × ℕ)) : List (ℕ × ℕ) := List.insertionSort pairLe l

/-- Neighbor marking `selected[e.end] = false` (the C++ `vector<bool>` is
modelled as a function; only in-range indices are ever touched). -/
def markUnselected (sel : ℕ → Bool) (ps : List ℕ) : ℕ → Bool :=
  fun q => if q ∈ ps then false else sel q

/-- The greedy sweep of `Contractor::independentSet`
(contractor.cpp:391-403): a still-selected node is taken, its in- and
out-neighbors are unmarked, and the node joins the set. -/
def sweepGo (g : Graph) : List (ℕ × ℕ) → (ℕ → Bool) → List ℕ → List ℕ
  | [], _, acc => acc
  | (_, pos) :: rest, sel, acc =>
    if sel pos then
      sweepGo g rest
        (markUnselected (markUnselected sel (inNeighbors g pos)) (outNeighbors g pos))
        (acc ++ [pos])
    else sweepGo g rest sel acc

/-- `Contractor::independentSet` (contractor.cpp:373-407). -/
def independentSet (g : Graph) : List ℕ :=
  sweepGo g (sortPairs ((List.range g.nodeCount).map (fun p => (score g p, p))))
    (fun _ => true) []

/-- `Contractor::reduce` (contractor.cpp:409-433): keep the
`size/4` (all, if `size < 4`) `(score, node)` pairs smallest under the
total pair order.  `std::nth_element` with a total order on distinct
pairs determines that prefix as a set; it is modelled as
sort-then-take. -/
def reduce (s : List ℕ) (g : Graph) : List ℕ :=
  let metric := s.map (fun p => (score g p, p))
  let k := if metric.length < 4 then metric.length else metric.length / 4
  ((sortPairs metric).take k).map Prod.snd

/-- The keep-node scan of `Contractor::contract`
(contractor.cpp:461-479): positions not in the reduced set survive. -/
def keepNodes (g : Graph) (set : List ℕ) : List ℕ :=
  (List.range g.nodeCount).filter (fun p => decide (p ∉ set))

/-- The node-level effect of one `Contractor::contract(Graph&)` call
(contractor.cpp:445-571): the reduced independent set is removed; the
surviving edges and the registered deduplicated shortcuts of the next
graph are produced by the worker pipeline, abstracted here as `sc`. -/
def contractStep (sc : Graph → List ℕ → List (ℕ × ℕ)) (g : Graph) : Graph :=
  let set := reduce (independentSet g) g
  { nodeCount := (keepNodes g set).length, edges := sc g set }

/-- `std::round` (nonnegative arguments in this use). -/
def qRound (x : ℚ) : ℤ := ⌊x + 1/2⌋

/-- `uncontractedNodesPercent` (contractor.cpp:606-607, 613-614). -/
def percentOf (origCount curCount : ℕ) : ℚ :=
  (qRound ((curCount : ℚ) * 10000 / (origCount : ℚ)) : ℚ) / 100

/-- The `while` loop of `Contractor::contractCompletely`
(contractor.cpp:611-621), fuelled; `none` means the fuel ran out. -/
def contractLoop (sc : Graph → List ℕ → List (ℕ × ℕ)) (origCount : ℕ) (rest : ℚ) :
    ℕ → Graph → Option Graph
  | 0, _ => none
  | fuel + 1, g =>
    if percentOf origCount g.nodeCount > rest then
      contractLoop sc origCount rest fuel (contractStep sc g)
    else some g

/-- `Contractor::contractCompletely` (contractor.cpp:602-624): one
contraction, then the loop (`mergeWithContracted` only relabels and
merges nodes and does not affect termination; it is elided). -/
def contractCompletelyFuel (sc : Graph → List ℕ → List (ℕ × ℕ)) (g : Graph)
    (rest : ℚ) (fuel : ℕ) : Option Graph :=
  contractLoop sc g.nodeCount rest fuel (contractStep sc g)

/-! ### Shortcut finalization (sort + unique) -/

/-- The shortcut sort comparator of `Contractor::contract`
(contractor.cpp:519-537): by source id, then dest id, then the cost
components lexicographically. -/
def shortcutLt (l r : Edge) : Bool :=
  if l.sourceId < r.sourceId then true
  else if l.sourceId > r.sourceId then false
  else if l.destId < r.destId then true
  else if l.destId > r.destId then false
  else costLexLt l.cost r.cost

/-- Stable insertion step for the shortcut sort. -/
def insertShortcut (x : Edge) : List Edge → List Edge
  | [] => [x]
  | y :: ys => if shortcutLt y x then y :: insertShortcut x ys else x :: y :: ys

/-- `std::sort` of the shortcut list, modelled as insertion sort. -/
def sortShortcuts : List Edge → List Edge
  | [] => []
  | x :: xs => insertShortcut x (sortShortcuts xs)

/-- `std::abs` on the cost components. -/
def ratAbs (x : ℚ) : ℚ := if x < 0 then -x else x

/-- Componentwise `|left - right| ≤ COST_ACCURACY`
(contractor.cpp:545-549). -/
def withinAccuracy : List ℚ → List ℚ → Bool
  | a :: as, b :: bs => decide (ratAbs (a - b) ≤ costAccuracy) && withinAccuracy as bs
  | _, _ => true

/-- The `std::unique` equivalence of `Contractor::contract`
(contractor.cpp:538-551): same endpoints and all cost components within
`COST_ACCURACY`. -/
def shortcutEquiv (l r : Edge) : Bool :=
  l.sourceId == r.sourceId && l.destId == r.destId && withinAccuracy l.cost r.cost

/-- The level-finalize pipeline: sort, then `unique`
(contractor.cpp:519-555). -/
def finalizeShortcuts (l : List Edge) : List Edge :=
  uniqueBy shortcutEquiv (sortShortcuts l)

/-! ### C2: the dominance predicate -/

theorem isDominatedGo_spec (c s : List ℚ) (diff : Bool) (h : c.length = s.length) :
    isDominatedGo c s diff = true ↔
      List.Forall₂ (· ≤ ·) c s ∧ (diff = true ∨ c ≠ s) := by
  induction c generalizing s diff with
  | nil =>
    cases s with
    | nil =>
      constructor
      · intro hd
        exact ⟨List.Forall₂.nil, Or.inl hd⟩
      · rintro ⟨_, hd | hd⟩
        · exact hd
        · exact absurd rfl hd
    | cons b bs => simp at h
  | cons a as ih =>
    cases s with
    | nil => simp at h
    | cons b bs =>
      simp only [List.length_cons, Nat.succ.injEq] at h
      show (if a > b then false
            else isDominatedGo as bs (diff || decide (a ≠ b))) = true ↔ _
      by_cases hab : a > b
      · rw [if_pos hab]
        constructor
        · intro hfalse; exact absurd hfalse (by simp)
        · rintro ⟨hf, _⟩
          exact absurd (List.forall₂_cons.mp hf).1 (not_le.mpr hab)
      · rw [if_neg hab, ih bs _ h]
        constructor
        · rintro ⟨hf, hd⟩
          refine ⟨List.forall₂_cons.mpr ⟨le_of_not_lt hab, hf⟩, ?_⟩
          rcases hd with hd | hd
          · rcases Bool.or_eq_true_iff.mp hd with hd' | hd'
            · exact Or.inl hd'
            · refine Or.inr ?_
              intro hc
              injection hc with h1 _
              exact of_decide_eq_true hd' h1
          · refine Or.inr ?_
            intro hc
            injection hc with _ h2
            exact hd h2
        · rintro ⟨hf, hd⟩
          refine ⟨(List.forall₂_cons.mp hf).2, ?_⟩
          rcases hd with hd | hd
          · exact Or.inl (by simp [hd])
          · by_cases hab' : a = b
            · subst hab'
              refine Or.inr ?_
              intro hcs
              exact hd (by rw [hcs])
            · exact Or.inl (by simp [hab'])

/-- C2: `isDominated(c)` holds iff `c` is componentwise `≤ shortcutCost`
and differs from it somewhere; in particular `isDominated shortcutCost
shortcutCost` is `false`. -/
theorem c2_isDominated_iff (s c : Cost) (h : c.length = s.length) :
    (isDominated s c = true ↔ List.Forall₂ (· ≤ ·) c s ∧ c ≠ s) ∧
      isDominated s s = false := by
  constructor
  · rw [isDominated, isDominatedGo_spec c s false h]
    simp
  · rw [isDominated]
    by_contra hne
    have : isDominatedGo s s false = true := by
      revert hne; cases isDominatedGo s s false <;> simp
    rw [isDominatedGo_spec s s false rfl] at this
    rcases this with ⟨_, hd | hd⟩ <;> simp_all

/-- Witness for C2 at a concrete input: `[1/2, 1]` is dominated by `[1, 1]`. -/
theorem c2_isDominated_iff_witness :
    (isDominated [(1 : ℚ), 1] [1/2, 1] = true ↔
        List.Forall₂ (· ≤ ·) [(1 : ℚ)/2, 1] [1, 1] ∧ ([(1 : ℚ)/2, 1] ≠ [1, 1])) ∧
      isDominated [(1 : ℚ), 1] [(1 : ℚ), 1] = false :=
  c2_isDominated_iff [(1 : ℚ), 1] [1/2, 1] (by decide)

/-! ### C1: `testConfig` -/

/-- Unfolding of `testConfig` as a single match on the Dijkstra answer. -/
theorem testConfig_eq (env : Env) (st : CtState) (c : Config) :
    testConfig env st c =
      match env.find st.inE.endPos st.outE.endPos c with
      | none => (true, st)
      | some r =>
        if r.edges.isEmpty then (true, st)
        else
          let st1 := { st with currentCost := r.costs, route := r,
                               constraints := st.constraints ++ [r.costs] }
          if costEq c r.costs (addCost st.inE.cost st.outE.cost) then
            if r.pathCount == 1
                || r.edges.any (fun id => env.set.contains (env.getEdge id).destId)
            then (true, storeShortcut env .shortestPath st1)
            else (true, st1)
          else if isDominated st.shortcutCost r.costs then (true, st1)
          else (false, st1) := by
  unfold testConfig checkShortestPath
  cases env.find st.inE.endPos st.outE.endPos c <;> rfl

/-- `testConfig` never touches the pair under test, the active config,
the shortcut cost, or the LP counter; when it returns `false` it has
also produced no shortcut and no classification event. -/
theorem testConfig_preserves (env : Env) (st : CtState) (c : Config) :
    (testConfig env st c).2.inE = st.inE ∧
    (testConfig env st c).2.outE = st.outE ∧
    (testConfig env st c).2.config = st.config ∧
    (testConfig env st c).2.shortcutCost = st.shortcutCost ∧
    (testConfig env st c).2.lpCount = st.lpCount ∧
    ((testConfig env st c).1 = false →
      (testConfig env st c).2.shortcuts = st.shortcuts ∧
      (testConfig env st c).2.stats = st.stats) := by
  unfold testConfig
  rcases h : checkShortestPath env.find st.inE st.outE c with ⟨b, r?⟩
  cases r? with
  | none => simp
  | some r =>
    by_cases hemp : r.edges.isEmpty <;>
      by_cases hb : b <;>
        simp [hemp, hb, storeShortcut] <;> split <;> simp

/-- C1 (amended): `testConfig(cfg)` returns `false` exactly when a route
with a non-empty edge list is found that is neither shortest (scalarized
equality) nor dominated; whenever such a route is found its cost is
appended to `constraints` — including the shortest and dominated cases;
when there is no route (or its edge list is empty) the state is
untouched; and a `SHORTEST_PATH` shortcut is emitted exactly when the
route is shortest and the necessary-by-shortest predicate
(`pathCount == 1` or a route edge ends in a selected node) holds. -/
theorem c1_testConfig (env : Env) (st : CtState) (c : Config) :
    ((testConfig env st c).1 = false ↔
      ∃ r, env.find st.inE.endPos st.outE.endPos c = some r ∧ r.edges ≠ [] ∧
        costEq c r.costs (addCost st.inE.cost st.outE.cost) = false ∧
        isDominated st.shortcutCost r.costs = false) ∧
    (∀ r, env.find st.inE.endPos st.outE.endPos c = some r → r.edges ≠ [] →
      (testConfig env st c).2.constraints = st.constraints ++ [r.costs]) ∧
    ((env.find st.inE.endPos st.outE.endPos c = none ∨
        (∃ r, env.find st.inE.endPos st.outE.endPos c = some r ∧ r.edges = [])) →
      (testConfig env st c).2 = st) ∧
    ((testConfig env st c).2.stats = st.stats ++ [CountType.shortestPath] ↔
      ∃ r, env.find st.inE.endPos st.outE.endPos c = some r ∧ r.edges ≠ [] ∧
        costEq c r.costs (addCost st.inE.cost st.outE.cost) = true ∧
        (r.pathCount == 1
          || r.edges.any (fun id => env.set.contains (env.getEdge id).destId)) = true) := by
  unfold testConfig checkShortestPath
  cases hfind : env.find st.inE.endPos st.outE.endPos c with
  | none =>
    refine ⟨by simp, ?_, by simp, ?_⟩
    · rintro r hr -
      exact Option.noConfusion hr
    · constructor
      · intro hst
        exact absurd hst (by simp)
      · rintro ⟨r, hr, -⟩
        exact Option.noConfusion hr
  | some r =>
    by_cases hemp : r.edges.isEmpty
    · have hnil : r.edges = [] := List.isEmpty_iff.mp hemp
      refine ⟨by simp [hemp, hnil], ?_, by simp [hemp], ?_⟩
      · rintro r' hr' hne
        obtain rfl := Option.some.inj hr'
        exact absurd hnil hne
      · simp only [hemp, if_true]
        constructor
        · intro hst
          exact absurd hst (by simp)
        · rintro ⟨r', hr', hne, -⟩
          obtain rfl := Option.some.inj hr'
          exact absurd hnil hne
    · have hne : r.edges ≠ [] := fun hc => hemp (by simp [hc])
      have hempf : r.edges.isEmpty = false := by
        revert hemp; cases r.edges.isEmpty <;> simp
      by_cases hshort : costEq c r.costs (addCost st.inE.cost st.outE.cost) = true
      · by_cases hnsp : (r.pathCount == 1
            || r.edges.any (fun id => env.set.contains (env.getEdge id).destId)) = true
        · refine ⟨?_, ?_, ?_, ?_⟩
          · simp only [hempf, Bool.false_eq_true, if_false, hshort, hnsp, if_true]
            constructor
            · intro hfalse; cases hfalse
            · rintro ⟨r', hr', -, hs, -⟩
              obtain rfl := Option.some.inj hr'
              rw [hshort] at hs; cases hs
          · rintro r' hr' -
            obtain rfl := Option.some.inj hr'
            simp only [hempf, Bool.false_eq_true, if_false, hshort, hnsp, if_true]
            simp [storeShortcut]
          · rintro (h | ⟨r', hr', hnil⟩)
            · exact Option.noConfusion h
            · obtain rfl := Option.some.inj hr'
              exact absurd hnil hne
          · simp only [hempf, Bool.false_eq_true, if_false, hshort, hnsp, if_true]
            constructor
            · intro _
              exact ⟨r, rfl, hne, hshort, hnsp⟩
            · intro _
              simp [storeShortcut]
        · refine ⟨?_, ?_, ?_, ?_⟩
          · simp only [hempf, Bool.false_eq_true, if_false, hshort, hnsp, if_true]
            constructor
            · intro hfalse; cases hfalse
            · rintro ⟨r', hr', -, hs, -⟩
              obtain rfl := Option.some.inj hr'
              rw [hshort] at hs; cases hs
          · rintro r' hr' -
            obtain rfl := Option.some.inj hr'
            simp only [hempf, Bool.false_eq_true, if_false, hshort, hnsp, if_true]
          · rintro (h | ⟨r', hr', hnil⟩)
            · exact Option.noConfusion h
            · obtain rfl := Option.some.inj hr'
              exact absurd hnil hne
          · simp only [hempf, Bool.false_eq_true, if_false, hshort, hnsp, if_true]
            constructor
            · intro hst
              have := congrArg List.length hst
              simp at this
            · rintro ⟨r', hr', -, -, hn⟩
              obtain rfl := Option.some.inj hr'
              exact absurd hn hnsp
      · have hshort' : costEq c r.costs (addCost st.inE.cost st.outE.cost) = false := by
          revert hshort; cases costEq c r.costs (addCost st.inE.cost st.outE.cost) <;> simp
        by_cases hdom : isDominated st.shortcutCost r.costs = true
        · refine ⟨?_, ?_, ?_, ?_⟩
          · simp only [hempf, Bool.false_eq_true, if_false, hshort', hdom, if_true]
            constructor
            · intro hfalse; cases hfalse
            · rintro ⟨r', hr', -, -, hd⟩
              obtain rfl := Option.some.inj hr'
              rw [hdom] at hd; cases hd
          · rintro r' hr' -
            obtain rfl := Option.some.inj hr'
            simp only [hempf, Bool.false_eq_true, if_false, hshort', hdom, if_true]
          · rintro (h | ⟨r', hr', hnil⟩)
            · exact Option.noConfusion h
            · obtain rfl := Option.some.inj hr'
              exact absurd hnil hne
          · simp only [hempf, Bool.false_eq_true, if_false, hshort', hdom, if_true]
            constructor
            · intro hst
              have := congrArg List.length hst
              simp at this
            · rintro ⟨r', hr', -, hs, -⟩
              obtain rfl := Option.some.inj hr'
              rw [hshort'] at hs; cases hs
        · have hdom' : isDominated st.shortcutCost r.costs = false := by
            revert hdom; cases isDominated st.shortcutCost r.costs <;> simp
          refine ⟨?_, ?_, ?_, ?_⟩
          · simp only [hempf, Bool.false_eq_true, if_false, hshort', hdom']
            exact ⟨fun _ => ⟨r, rfl, hne, hshort', hdom'⟩, fun _ => by trivial⟩
          · rintro r' hr' -
            obtain rfl := Option.some.inj hr'
            simp only [hempf, Bool.false_eq_true, if_false, hshort', hdom']
          · rintro (h | ⟨r', hr', hnil⟩)
            · exact Option.noConfusion h
            · obtain rfl := Option.some.inj hr'
              exact absurd hnil hne
          · simp only [hempf, Bool.false_eq_true, if_false, hshort', hdom']
            constructor
            · intro hst
              have := congrArg List.length hst
              simp at this
            · rintro ⟨r', hr', -, hs, -⟩
              obtain rfl := Option.some.inj hr'
              rw [hshort'] at hs; cases hs

/-- Witness for C1 (amended): with no route the state is untouched. -/
theorem c1_testConfig_witness :
    (testConfig ⟨fun _ _ _ => none, fun _ => ⟨0, 0, 0, [], none⟩, fun _ => none, []⟩
        (initState 2) [1, 0]).2 = initState 2 :=
  (c1_testConfig ⟨fun _ _ _ => none, fun _ => ⟨0, 0, 0, [], none⟩, fun _ => none, []⟩
    (initState 2) [1, 0]).2.2.1 (Or.inl rfl)

/-- Environment for the C1 counterexample, first scenario: the probe
route is shortest under the uniform config but ambiguous
(`pathCount = 2`) with no selected node on it. -/
def envC1A : Env :=
  ⟨fun _ _ _ => some ⟨[7], [2, 0], 2⟩, fun _ => ⟨0, 0, 0, [], none⟩, fun _ => none, []⟩

/-- Environment for the C1 counterexample, second scenario: the probe
route is dominated by the shortcut cost. -/
def envC1B : Env :=
  ⟨fun _ _ _ => some ⟨[8], [1/2, 1/2], 1⟩, fun _ => ⟨0, 0, 0, [], none⟩, fun _ => none, []⟩

/-- Thread state for the C1 counterexample: shortcut cost `[1, 1]`. -/
def stC1 : CtState :=
  { initState 2 with inE := ⟨0, 5, 1, [1/2, 1/2]⟩, outE := ⟨1, 5, 2, [1/2, 1/2]⟩,
                     shortcutCost := [1, 1] }

/-- Counterexample to C1 as stated.  First scenario: a route `[2,0]` is
found (not case (a)), it is shortest but NSP fails (`pathCount = 2`, no
selected node), so it is not case (b), and it is not dominated (not case
(c)); the claim then demands `false` with the cost appended, but the
code returns `true` (and still appends).  Second scenario: case (c)
(dominated) holds, yet the constraints buffer is changed, contradicting
"in cases (a)-(c) the constraints buffer is left unchanged". -/
theorem c1_counterexample :
    ((testConfig envC1A stC1 [1/2, 1/2]).1 = true ∧
      envC1A.find stC1.inE.endPos stC1.outE.endPos [1/2, 1/2] = some ⟨[7], [2, 0], 2⟩ ∧
      ([7] : List ℕ) ≠ [] ∧
      costEq [1/2, 1/2] [2, 0] (addCost stC1.inE.cost stC1.outE.cost) = true ∧
      (2 : ℕ) ≠ 1 ∧
      (∀ id ∈ ([7] : List ℕ), ¬ (envC1A.getEdge id).destId ∈ envC1A.set) ∧
      isDominated stC1.shortcutCost [2, 0] = false ∧
      (testConfig envC1A stC1 [1/2, 1/2]).2.stats = stC1.stats) ∧
    ((testConfig envC1B stC1 [1, 0]).1 = true ∧
      isDominated stC1.shortcutCost [1/2, 1/2] = true ∧
      (testConfig envC1B stC1 [1, 0]).2.constraints ≠ stC1.constraints) := by
  with_unfolding_all decide

/-! ### C3: LP-loop exit behaviour -/

/-- C3: in the main LP loop, after a probe that leaves the question open,
a solver failure exits the loop with no shortcut emitted, and a returned
configuration equal to the current one exits the loop emitting a
shortcut classified `REPEATING_CONFIG` when
`currentCost · config ≥ shortcutCost · config − COST_ACCURACY` and
`UNKNOWN_REASON` otherwise. -/
theorem c3_lpLoop (env : Env) (st st1 st3 : CtState) (fuel : ℕ)
    (hprobe : testConfig env st st.config = (false, st1))
    (hst3 : st3 = { dedupConstraints st1 with
                    lpCount := (dedupConstraints st1).lpCount + 1 }) :
    (env.lp (lpRows st3) = none →
      mainLoop env (fuel + 1) st = some st3 ∧
        st3.shortcuts = st.shortcuts ∧ st3.stats = st.stats) ∧
    (∀ v, env.lp (lpRows st3) = some v → v = st3.config →
      mainLoop env (fuel + 1) st = some (storeShortcut env
          (if dot st3.shortcutCost st3.config - costAccuracy ≤
              dot st3.currentCost st3.config
           then CountType.repeatingConfig else CountType.unknownReason) st3) ∧
      (storeShortcut env
          (if dot st3.shortcutCost st3.config - costAccuracy ≤
              dot st3.currentCost st3.config
           then CountType.repeatingConfig else CountType.unknownReason) st3).shortcuts =
        st.shortcuts ++
          [createShortcut (env.getEdge st.inE.id) (env.getEdge st.outE.id)] ∧
      (storeShortcut env
          (if dot st3.shortcutCost st3.config - costAccuracy ≤
              dot st3.currentCost st3.config
           then CountType.repeatingConfig else CountType.unknownReason) st3).stats =
        st.stats ++
          [if dot st3.shortcutCost st3.config - costAccuracy ≤
              dot st3.currentCost st3.config
           then CountType.repeatingConfig else CountType.unknownReason]) := by
  have hpres := testConfig_preserves env st st.config
  rw [hprobe] at hpres
  obtain ⟨hin, hout, hcfg, -, -, hfalse⟩ := hpres
  obtain ⟨hsc, hstats⟩ := hfalse rfl
  simp only at hin hout hcfg hsc hstats
  have hunfold : mainLoop env (fuel + 1) st =
      (match env.lp (lpRows st3) with
       | none => some st3
       | some values =>
         if values == st3.config then
           some (storeShortcut env
             (if dot st3.shortcutCost st3.config - costAccuracy ≤
                 dot st3.currentCost st3.config
              then CountType.repeatingConfig else CountType.unknownReason) st3)
         else mainLoop env fuel { st3 with config := values }) := by
    subst hst3
    simp only [mainLoop, hprobe]
  constructor
  · intro hlp
    refine ⟨?_, by simp [hst3, dedupConstraints, hsc],
            by simp [hst3, dedupConstraints, hstats]⟩
    rw [hunfold, hlp]
  · intro v hlp hv
    refine ⟨?_, ?_, ?_⟩
    · rw [hunfold, hlp]
      simp [hv]
    · simp [storeShortcut, hst3, dedupConstraints, hsc, hin, hout]
    · simp [storeShortcut, hst3, dedupConstraints, hstats]

/-- Environment for the C3 witness: the probe finds a route that is
neither shortest nor dominated and the LP solver fails. -/
def envC3 : Env :=
  ⟨fun _ _ _ => some ⟨[9], [3, 3], 1⟩, fun _ => ⟨0, 0, 0, [], none⟩, fun _ => none, []⟩

/-- Thread state for the C3 witness. -/
def stC3 : CtState :=
  { initState 2 with inE := ⟨0, 5, 1, [1/2, 1/2]⟩, outE := ⟨1, 5, 2, [1/2, 1/2]⟩,
                     shortcutCost := [1, 1] }

/-- The state after the open probe in the C3 witness. -/
def stC3after : CtState := (testConfig envC3 stC3 stC3.config).2

/-- The state handed to the LP in the C3 witness. -/
def stC3lp : CtState :=
  { dedupConstraints stC3after with lpCount := (dedupConstraints stC3after).lpCount + 1 }

/-- Witness for C3 at a concrete solver-failure run. -/
theorem c3_lpLoop_witness :
    mainLoop envC3 1 stC3 = some stC3lp ∧
      stC3lp.shortcuts = stC3.shortcuts ∧ stC3lp.stats = stC3.stats :=
  (c3_lpLoop envC3 stC3 stC3after stC3lp 0 (by with_unfolding_all decide) rfl).1 rfl

/-! ### C9: warm starts -/

/-- C9 (amended): a single probe's outcome does not depend on the
carried constraints buffer — `testConfig` returns the same done/continue
answer, the same produced shortcuts and the same classification events
whatever `constraints` holds when it is called. -/
theorem c9_probe_ignores_constraints (env : Env) (st : CtState) (cs : List Cost)
    (c : Config) :
    (testConfig env { st with constraints := cs } c).1 = (testConfig env st c).1 ∧
    (testConfig env { st with constraints := cs } c).2.shortcuts =
      (testConfig env st c).2.shortcuts ∧
    (testConfig env { st with constraints := cs } c).2.stats =
      (testConfig env st c).2.stats := by
  rw [testConfig_eq env st c, testConfig_eq env { st with constraints := cs } c]
  simp only
  cases h : env.find st.inE.endPos st.outE.endPos c with
  | none => exact ⟨rfl, rfl, rfl⟩
  | some r =>
    by_cases hemp : r.edges.isEmpty <;>
      by_cases hshort : costEq c r.costs (addCost st.inE.cost st.outE.cost) = true <;>
        simp [hemp, hshort, storeShortcut] <;> split <;> simp

/-- The routes available between the endpoints `u = 0` and `w = 1` in
the C9 counterexample graph: the pair-2 path through `v2` (edges 10,
11), two keep-node paths, and the pair-1 path through `v1` (edges 12,
13).  `pathCount` placeholders are recomputed by the Dijkstra model. -/
def routeTableC9 : List RouteWithCount :=
  [⟨[10, 11], [1, 1], 1⟩,
   ⟨[20, 21], [1, 13/10], 1⟩,
   ⟨[22, 23], [21/20, 4/5], 1⟩,
   ⟨[12, 13], [3, 3], 1⟩]

/-- The scalarized-optimal route of a table, earliest entry winning
ties (a deterministic optimal Dijkstra over the fixed route set). -/
def bestRouteAux (conf : Config) : List RouteWithCount → Option RouteWithCount
  | [] => none
  | r :: rs =>
    match bestRouteAux conf rs with
    | none => some r
    | some b => if dot conf r.costs ≤ dot conf b.costs then some r else some b

/-- An optimal Dijkstra over a fixed route table: returns the best route
under the scalarized cost with `pathCount` the number of co-optimal
routes. -/
def findFromTable (table : List RouteWithCount) (conf : Config) :
    Option RouteWithCount :=
  match bestRouteAux conf table with
  | none => none
  | some b =>
      some { b with
             pathCount := table.countP (fun r => dot conf r.costs == dot conf b.costs) }

/-- The edge registry of the C9 counterexample graph (`u = 0`, `w = 1`,
`v1 = 2`, `v2 = 3`, keep nodes `4` and `5`). -/
def edgeRegistryC9 : ℕ → Edge := fun id =>
  if id = 10 then ⟨0, 3, 10, [1/2, 1/2], none⟩
  else if id = 11 then ⟨3, 1, 11, [1/2, 1/2], none⟩
  else if id = 12 then ⟨0, 2, 12, [1, 2], none⟩
  else if id = 13 then ⟨2, 1, 13, [2, 1], none⟩
  else if id = 20 then ⟨0, 4, 20, [1/2, 1/2], none⟩
  else if id = 21 then ⟨4, 1, 21, [1/2, 4/5], none⟩
  else if id = 22 then ⟨0, 5, 22, [1/2, 1/2], none⟩
  else ⟨5, 1, 23, [11/20, 3/10], none⟩

/-- Modelled from the spec: the `ContractionLp` adapter is outside
`src/`; per the spec it searches a simplex config with
`(c − shortcutCost) · config > 0` for every constraint row.  A row that
is componentwise nonpositive makes that impossible, so the solver
reports failure; all other systems in the runs below are unreachable and
are answered with the uniform config. -/
def lpC9 : List (List ℚ) → Option Config := fun rows =>
  if rows.any (fun r => r.all (fun x => decide (x ≤ 0))) then none
  else some (uniformConfig 2)

/-- The full C9 counterexample environment. -/
def envC9 : Env :=
  ⟨fun src dst conf => if src = 0 ∧ dst = 1 then findFromTable routeTableC9 conf else none,
   edgeRegistryC9, lpC9, [2, 3]⟩

/-- The earlier pair through `v1` (same endpoints `(0, 1)`). -/
def pair1C9 : EdgePair := ⟨⟨0, 2, 12, [1, 2]⟩, ⟨1, 2, 13, [2, 1]⟩⟩

/-- The pair through `v2` whose outcome flips. -/
def pair2C9 : EdgePair := ⟨⟨0, 3, 10, [1/2, 1/2]⟩, ⟨1, 3, 11, [1/2, 1/2]⟩⟩

/-- Counterexample to C9 as stated: with an optimal Dijkstra and a
spec-faithful LP, processing `pair2` cold emits a `SHORTEST_PATH`
shortcut (the axis probe finds the route through `v2` itself, tied and
passing through the selected node `v2`), while processing it warm after
`pair1` — same endpoints, axis probes skipped — carries the constraint
`[1,1]`, equal to the new shortcut cost, whose LP row `[0,0]` makes the
LP infeasible: no shortcut is emitted.  Decision and classification both
differ. -/
theorem c9_counterexample :
    Except.map (fun st => (st.stats, st.shortcuts))
        (runWorker envC9 2 5 [pair1C9, pair2C9] (initState 2)) = .ok ([], []) ∧
    Except.map (fun st => (st.stats, st.shortcuts))
        (runWorker envC9 2 5 [pair2C9] (initState 2)) =
      .ok ([CountType.shortestPath],
           [Except.ok ⟨0, 1, 0, [1, 1], some (10, 11)⟩]) ∧
    pair1C9.inE.endPos = pair2C9.inE.endPos ∧
    pair1C9.outE.endPos = pair2C9.outE.endPos := by
  with_unfolding_all decide

/-! ### C5: `createShortcut` -/

/-- C5: `createShortcut` errors exactly when the edges are not connected;
on success the result has `e1`'s source, `e2`'s destination, children
`(e1.id, e2.id)` and cost `e1.cost + e2.cost`. -/
theorem c5_createShortcut (e1 e2 : Edge) :
    (e1.destId ≠ e2.sourceId → ∃ s, createShortcut e1 e2 = .error s) ∧
    (e1.destId = e2.sourceId →
      ∃ e, createShortcut e1 e2 = .ok e ∧ e.sourceId = e1.sourceId ∧
        e.destId = e2.destId ∧ e.children = some (e1.id, e2.id) ∧
        e.cost = addCost e1.cost e2.cost) := by
  constructor
  · intro hne
    exact ⟨"Edges are not connected", by simp [createShortcut, hne]⟩
  · intro heq
    refine ⟨{ sourceId := e1.sourceId, destId := e2.destId, id := 0,
              cost := addCost e1.cost e2.cost, children := some (e1.id, e2.id) },
            ?_, rfl, rfl, rfl, rfl⟩
    simp [createShortcut, heq]

/-- Witness for C5 on connected concrete edges. -/
theorem c5_createShortcut_witness :
    ∃ e, createShortcut ⟨0, 1, 10, [1, 2], none⟩ ⟨1, 2, 11, [3, 4], none⟩ = .ok e ∧
      e.sourceId = 0 ∧ e.destId = 2 ∧ e.children = some (10, 11) ∧
      e.cost = addCost [1, 2] [3, 4] := by
  have h := (c5_createShortcut ⟨0, 1, 10, [1, 2], none⟩ ⟨1, 2, 11, [3, 4], none⟩).2 rfl
  exact h

/-! ### C7: `checkShortestPath` -/

/-- C7: with no route the probe returns `(false, none)`; with a route `r`
it returns the route together with the scalarized-equality test of
`r.costs` against `in.cost + out.cost`. -/
theorem c7_checkShortestPath (find : ℕ → ℕ → Config → Option RouteWithCount)
    (s d : HalfEdge) (conf : Config) :
    (find s.endPos d.endPos conf = none →
      checkShortestPath find s d conf = (false, none)) ∧
    (∀ r, find s.endPos d.endPos conf = some r →
      checkShortestPath find s d conf =
        (costEq conf r.costs (addCost s.cost d.cost), some r)) := by
  constructor
  · intro h; simp [checkShortestPath, h]
  · intro r h; simp [checkShortestPath, h]

/-- Witness for C7: a one-entry route table. -/
theorem c7_checkShortestPath_witness :
    checkShortestPath (fun _ _ _ => some ⟨[5], [2, 2], 1⟩)
        ⟨0, 7, 1, [1, 1]⟩ ⟨3, 7, 2, [1, 1]⟩ [1/2, 1/2] =
      (costEq [1/2, 1/2] [2, 2] (addCost [1, 1] [1, 1]), some ⟨[5], [2, 2], 1⟩) :=
  (c7_checkShortestPath (fun _ _ _ => some ⟨[5], [2, 2], 1⟩)
    ⟨0, 7, 1, [1, 1]⟩ ⟨3, 7, 2, [1, 1]⟩ [1/2, 1/2]).2 ⟨[5], [2, 2], 1⟩ rfl

/-! ### C4: independence of the selected set -/

theorem markUnselected_eq_false (sel : ℕ → Bool) (ps : List ℕ) (q : ℕ) (h : q ∈ ps) :
    markUnselected sel ps q = false := by
  simp [markUnselected, h]

theorem markUnselected_mono (sel : ℕ → Bool) (ps : List ℕ) (q : ℕ)
    (h : sel q = false) : markUnselected sel ps q = false := by
  unfold markUnselected
  split <;> simp [h]

theorem mem_outNeighbors (g : Graph) (e : ℕ × ℕ) (he : e ∈ g.edges) :
    e.2 ∈ outNeighbors g e.1 := by
  unfold outNeighbors
  exact List.mem_map_of_mem _ (List.mem_filter.mpr ⟨he, by simp⟩)

theorem mem_inNeighbors (g : Graph) (e : ℕ × ℕ) (he : e ∈ g.edges) :
    e.1 ∈ inNeighbors g e.2 := by
  unfold inNeighbors
  exact List.mem_map_of_mem _ (List.mem_filter.mpr ⟨he, by simp⟩)

/-- Sweep invariant: every neighbor of an already-taken node is
unselected. -/
def IndepInv (g : Graph) (sel : ℕ → Bool) (acc : List ℕ) : Prop :=
  ∀ p ∈ acc, ∀ e ∈ g.edges, (e.1 = p → sel e.2 = false) ∧ (e.2 = p → sel e.1 = false)

/-- No edge has both endpoints in the list. -/
def NoAdjacent (g : Graph) (acc : List ℕ) : Prop :=
  ∀ e ∈ g.edges, ¬(e.1 ∈ acc ∧ e.2 ∈ acc)

theorem sweepGo_no_adjacent (g : Graph) (hloop : ∀ e ∈ g.edges, e.1 ≠ e.2) :
    ∀ (l : List (ℕ × ℕ)) (sel : ℕ → Bool) (acc : List ℕ),
      IndepInv g sel acc → NoAdjacent g acc →
      NoAdjacent g (sweepGo g l sel acc) := by
  intro l
  induction l with
  | nil =>
    intro sel acc _ hacc
    simpa [sweepGo] using hacc
  | cons hd rest ih =>
    intro sel acc hinv hacc
    obtain ⟨s, pos⟩ := hd
    rw [sweepGo]
    by_cases hsel : sel pos = true
    · rw [if_pos hsel]
      apply ih
      · intro p hp e he
        rcases List.mem_append.mp hp with hp | hp
        · obtain ⟨h1, h2⟩ := hinv p hp e he
          exact ⟨fun h => markUnselected_mono _ _ _ (markUnselected_mono _ _ _ (h1 h)),
                 fun h => markUnselected_mono _ _ _ (markUnselected_mono _ _ _ (h2 h))⟩
        · have hp' : p = pos := by simpa using hp
          subst hp'
          constructor
          · intro h1
            have hm : e.2 ∈ outNeighbors g p := by
              rw [← h1]; exact mem_outNeighbors g e he
            exact markUnselected_eq_false _ _ _ hm
          · intro h2
            have hm : e.1 ∈ inNeighbors g p := by
              rw [← h2]; exact mem_inNeighbors g e he
            exact markUnselected_mono _ _ _ (markUnselected_eq_false _ _ _ hm)
      · intro e he hins
        obtain ⟨h1, h2⟩ := hins
        rcases List.mem_append.mp h1 with h1 | h1 <;>
          rcases List.mem_append.mp h2 with h2 | h2
        · exact hacc e he ⟨h1, h2⟩
        · have h2' : e.2 = pos := by simpa using h2
          have hf := (hinv e.1 h1 e he).1 rfl
          rw [h2', hsel] at hf
          cases hf
        · have h1' : e.1 = pos := by simpa using h1
          have hf := (hinv e.2 h2 e he).2 rfl
          rw [h1', hsel] at hf
          cases hf
        · have h1' : e.1 = pos := by simpa using h1
          have h2' : e.2 = pos := by simpa using h2
          exact hloop e he (h1'.trans h2'.symm)
    · rw [if_neg hsel]
      exact ih sel acc hinv hacc

theorem reduce_subset (s : List ℕ) (g : Graph) : ∀ x ∈ reduce s g, x ∈ s := by
  intro x hx
  simp only [reduce, List.length_map] at hx
  obtain ⟨pr, hpr, hsnd⟩ := List.mem_map.mp hx
  have hpr' : pr ∈ sortPairs (s.map (fun p => (score g p, p))) := List.take_subset _ _ hpr
  have hpr'' : pr ∈ s.map (fun p => (score g p, p)) :=
    ((List.perm_insertionSort pairLe _).mem_iff).mp hpr'
  obtain ⟨p, hp, hfp⟩ := List.mem_map.mp hpr''
  rw [← hsnd, ← hfp]
  exact hp

/-- C4 (amended): on every graph without self-loops,
`reduce(independentSet(g), g)` is an independent set: no edge has both
endpoints in it. -/
theorem c4_independent (g : Graph) (hloop : ∀ e ∈ g.edges, e.1 ≠ e.2) :
    ∀ e ∈ g.edges,
      ¬(e.1 ∈ reduce (independentSet g) g ∧ e.2 ∈ reduce (independentSet g) g) := by
  intro e he hins
  obtain ⟨h1, h2⟩ := hins
  have hIS : NoAdjacent g (independentSet g) := by
    apply sweepGo_no_adjacent g hloop
    · intro p hp
      exact absurd hp (by simp)
    · intro e' he' hc
      obtain ⟨hc1, -⟩ := hc
      exact absurd hc1 (by simp)
  exact hIS e he ⟨reduce_subset _ g _ h1, reduce_subset _ g _ h2⟩

/-- A one-node graph with a self-loop. -/
def graphC4 : Graph := ⟨1, [(0, 0)]⟩

/-- Counterexample to C4 as stated: with a self-loop `0 → 0`, the sweep
unmarks node `0` only *after* deciding to take it, so `0` still enters
the set and the self-loop edge has both endpoints in the returned set. -/
theorem c4_counterexample :
    (0, 0) ∈ graphC4.edges ∧
    (0, 0).1 ∈ reduce (independentSet graphC4) graphC4 ∧
    (0, 0).2 ∈ reduce (independentSet graphC4) graphC4 := by
  set_option maxRecDepth 4000 in decide

/-- A two-node loop-free graph for the C4 witness. -/
def graphC4W : Graph := ⟨2, [(0, 1)]⟩

/-- Witness for C4 (amended) on a concrete loop-free graph. -/
theorem c4_independent_witness :
    ¬((0, 1).1 ∈ reduce (independentSet graphC4W) graphC4W ∧
      (0, 1).2 ∈ reduce (independentSet graphC4W) graphC4W) :=
  c4_independent graphC4W (by decide) (0, 1) (by decide)

/-! ### C6: duplicate removal -/

theorem uniqueGo_chain (eq : α → α → Bool) (x : α) (l : List α) :
    List.Chain' (fun a b => eq a b = false) (x :: uniqueGo eq x l) := by
  induction l generalizing x with
  | nil => simp [uniqueGo]
  | cons y ys ih =>
    show List.Chain' _ (x :: if eq x y then uniqueGo eq x ys else y :: uniqueGo eq y ys)
    by_cases h : eq x y = true
    · rw [if_pos h]
      exact ih x
    · have h' : eq x y = false := by revert h; cases eq x y <;> simp
      rw [if_neg h]
      exact List.chain'_cons.mpr ⟨h', ih y⟩

/-- C6 (amended): after the level-finalize sort and unique, *consecutive*
output shortcuts are never equivalent: whenever two adjacent entries
share source and destination, some cost component differs by more than
`COST_ACCURACY`.  (Non-adjacent entries can still be equivalent, because
`std::unique` compares only against the last kept element and the
tolerance relation is not transitive — see the counterexample.) -/
theorem c6_finalize_adjacent (l : List Edge) :
    List.Chain' (fun a b => a.sourceId = b.sourceId → a.destId = b.destId →
      withinAccuracy a.cost b.cost = false) (finalizeShortcuts l) := by
  have hch : List.Chain' (fun a b => shortcutEquiv a b = false) (finalizeShortcuts l) := by
    unfold finalizeShortcuts
    cases sortShortcuts l with
    | nil => simp [uniqueBy]
    | cons x xs => exact uniqueGo_chain shortcutEquiv x xs
  apply hch.imp
  intro a b hab hs hd
  unfold shortcutEquiv at hab
  simpa [hs, hd] using hab

/-- First shortcut of the C6 counterexample. -/
def eC6a : Edge := ⟨0, 1, 1, [0, 0], none⟩

/-- Middle shortcut of the C6 counterexample, within tolerance of the
first in the first component only. -/
def eC6b : Edge := ⟨0, 1, 2, [1/2000000, 1/500000], none⟩

/-- Last shortcut of the C6 counterexample, within tolerance of the
first in every component. -/
def eC6c : Edge := ⟨0, 1, 3, [9/10000000, 1/2000000], none⟩

/-- Counterexample to C6 as stated: all three shortcuts survive the
sort + unique (each is non-equivalent to the previously *kept* one),
yet the first and last share endpoints and agree within `COST_ACCURACY`
in every component — the tolerance relation is not transitive. -/
theorem c6_counterexample :
    finalizeShortcuts [eC6a, eC6b, eC6c] = [eC6a, eC6b, eC6c] ∧
    eC6a ≠ eC6c ∧ eC6a.sourceId = eC6c.sourceId ∧ eC6a.destId = eC6c.destId ∧
    withinAccuracy eC6a.cost eC6c.cost = true := by
  refine ⟨?_, ?_, rfl, rfl, ?_⟩
  · norm_num [finalizeShortcuts, sortShortcuts, insertShortcut, uniqueBy, uniqueGo,
      shortcutLt, costLexLt, shortcutEquiv, withinAccuracy, ratAbs, costAccuracy,
      eC6a, eC6b, eC6c]
  · simp [eC6a, eC6c, Edge.mk.injEq]
  · norm_num [withinAccuracy, ratAbs, costAccuracy, eC6a, eC6c]

/-! ### C8: the reduction to the lowest quartile -/

theorem reduce_eq (s : List ℕ) (g : Graph) :
    reduce s g = ((sortPairs (s.map (fun p => (score g p, p)))).take
      (if s.length < 4 then s.length else s.length / 4)).map Prod.snd := by
  simp only [reduce, List.length_map]

theorem sortPairs_length (l : List (ℕ × ℕ)) : (sortPairs l).length = l.length :=
  (List.perm_insertionSort pairLe l).length_eq

theorem reduce_length (s : List ℕ) (g : Graph) :
    (reduce s g).length = (if s.length < 4 then s.length else s.length / 4) := by
  rw [reduce_eq, List.length_map, List.length_take, sortPairs_length, List.length_map]
  have hk : (if s.length < 4 then s.length else s.length / 4) ≤ s.length := by
    split
    · exact le_rfl
    · exact Nat.div_le_self _ _
  exact min_eq_left hk

/-- C8: `reduce` keeps exactly `size/4` nodes (all of them when
`size < 4`, where it is a permutation of the input), every kept node
comes from the input, and every kept node's `(score, node)` key is at
most every dropped node's key — the lowest scores win, ties resolved
deterministically by node id. -/
theorem c8_reduce (g : Graph) (s : List ℕ) :
    (reduce s g).length = (if s.length < 4 then s.length else s.length / 4) ∧
    (s.length < 4 → (reduce s g).Perm s) ∧
    (∀ x ∈ reduce s g, x ∈ s) ∧
    (∀ x ∈ reduce s g, ∀ y ∈ s, y ∉ reduce s g →
      score g x < score g y ∨ (score g x = score g y ∧ x ≤ y)) := by
  have hperm : List.Perm (sortPairs (s.map (fun p => (score g p, p))))
      (s.map (fun p => (score g p, p))) := List.perm_insertionSort pairLe _
  have hsorted : List.Sorted pairLe (sortPairs (s.map (fun p => (score g p, p)))) :=
    List.sorted_insertionSort pairLe _
  have hlen : (sortPairs (s.map (fun p => (score g p, p)))).length = s.length := by
    rw [sortPairs_length, List.length_map]
  refine ⟨reduce_length s g, ?_, reduce_subset s g, ?_⟩
  · intro h4
    rw [reduce_eq]
    rw [if_pos h4]
    rw [List.take_of_length_le (le_of_eq hlen)]
    have hmp : List.Perm ((sortPairs (s.map (fun p => (score g p, p)))).map Prod.snd)
        ((s.map (fun p => (score g p, p))).map Prod.snd) := hperm.map Prod.snd
    have hms : (s.map (fun p => (score g p, p))).map Prod.snd = s := by
      simp [List.map_map, Function.comp_def]
    rw [hms] at hmp
    exact hmp
  · intro x hx y hy hyr
    rw [reduce_eq] at hx hyr
    obtain ⟨px, hpx, hpxsnd⟩ := List.mem_map.mp hx
    have hpxm : px ∈ s.map (fun p => (score g p, p)) :=
      hperm.mem_iff.mp (List.take_subset _ _ hpx)
    obtain ⟨p, hp, hfp⟩ := List.mem_map.mp hpxm
    have hpx_eq : px = (score g x, x) := by
      rw [← hfp] at hpxsnd ⊢
      simp only at hpxsnd
      rw [hpxsnd]
    have hpy_sorted : (score g y, y) ∈ sortPairs (s.map (fun p => (score g p, p))) :=
      hperm.mem_iff.mpr (List.mem_map_of_mem _ hy)
    have hpy_drop : (score g y, y) ∈ List.drop
        (if s.length < 4 then s.length else s.length / 4)
        (sortPairs (s.map (fun p => (score g p, p)))) := by
      have hsplit := List.take_append_drop
        (if s.length < 4 then s.length else s.length / 4)
        (sortPairs (s.map (fun p => (score g p, p))))
      rw [← hsplit] at hpy_sorted
      rcases List.mem_append.mp hpy_sorted with h | h
      · exact absurd (List.mem_map_of_mem Prod.snd h) hyr
      · exact h
    have happ : List.Pairwise pairLe
        (List.take (if s.length < 4 then s.length else s.length / 4)
            (sortPairs (s.map (fun p => (score g p, p)))) ++
          List.drop (if s.length < 4 then s.length else s.length / 4)
            (sortPairs (s.map (fun p => (score g p, p))))) := by
      rw [List.take_append_drop]
      exact hsorted
    have hpair := (List.pairwise_append.mp happ).2.2
    have hle := hpair px hpx _ hpy_drop
    rw [hpx_eq] at hle
    unfold pairLe at hle
    simpa using hle

/-- A four-node edgeless graph for the C8 witness. -/
def graphC8 : Graph := ⟨4, []⟩

/-- Witness for C8: on `{0,1,2,3}` with all scores `0`, node `0` is kept
(`4/4 = 1` node) and its key is at most node `1`'s key. -/
theorem c8_reduce_witness :
    score graphC8 0 < score graphC8 1 ∨
      (score graphC8 0 = score graphC8 1 ∧ 0 ≤ 1) :=
  (c8_reduce graphC8 [0, 1, 2, 3]).2.2.2 0 (by decide) 1 (by decide) (by decide)

/-! ### C10: progress and termination -/

theorem sweepGo_acc_mem (g : Graph) :
    ∀ (l : List (ℕ × ℕ)) (sel : ℕ → Bool) (acc : List ℕ) (x : ℕ),
      x ∈ acc → x ∈ sweepGo g l sel acc := by
  intro l
  induction l with
  | nil =>
    intro sel acc x hx
    simpa [sweepGo] using hx
  | cons hd rest ih =>
    intro sel acc x hx
    obtain ⟨s, pos⟩ := hd
    rw [sweepGo]
    by_cases hsel : sel pos = true
    · rw [if_pos hsel]
      exact ih _ _ x (List.mem_append.mpr (Or.inl hx))
    · rw [if_neg hsel]
      exact ih _ _ x hx

theorem sweepGo_mem_src (g : Graph) :
    ∀ (l : List (ℕ × ℕ)) (sel : ℕ → Bool) (acc : List ℕ) (x : ℕ),
      x ∈ sweepGo g l sel acc → x ∈ acc ∨ ∃ pr ∈ l, pr.2 = x := by
  intro l
  induction l with
  | nil =>
    intro sel acc x hx
    exact Or.inl (by simpa [sweepGo] using hx)
  | cons hd rest ih =>
    intro sel acc x hx
    obtain ⟨s, pos⟩ := hd
    rw [sweepGo] at hx
    by_cases hsel : sel pos = true
    · rw [if_pos hsel] at hx
      rcases ih _ _ x hx with h | ⟨pr, hpr, hsnd⟩
      · rcases List.mem_append.mp h with h | h
        · exact Or.inl h
        · refine Or.inr ⟨(s, pos), by simp, ?_⟩
          have : x = pos := by simpa using h
          rw [this]
      · exact Or.inr ⟨pr, List.mem_cons_of_mem _ hpr, hsnd⟩
    · rw [if_neg hsel] at hx
      rcases ih _ _ x hx with h | ⟨pr, hpr, hsnd⟩
      · exact Or.inl h
      · exact Or.inr ⟨pr, List.mem_cons_of_mem _ hpr, hsnd⟩

theorem independentSet_subset_range (g : Graph) :
    ∀ x ∈ independentSet g, x ∈ List.range g.nodeCount := by
  intro x hx
  unfold independentSet at hx
  rcases sweepGo_mem_src g _ _ _ x hx with h | ⟨pr, hpr, hsnd⟩
  · cases h
  · have hm : pr ∈ (List.range g.nodeCount).map (fun p => (score g p, p)) :=
      (List.perm_insertionSort pairLe _).mem_iff.mp hpr
    obtain ⟨p, hp, hfp⟩ := List.mem_map.mp hm
    rw [← hsnd, ← hfp]
    exact hp

theorem independentSet_ne_nil (g : Graph) (hg : 1 ≤ g.nodeCount) :
    independentSet g ≠ [] := by
  unfold independentSet
  have hlen : (sortPairs ((List.range g.nodeCount).map (fun p => (score g p, p)))).length =
      g.nodeCount := by
    rw [sortPairs_length, List.length_map, List.length_range]
  cases hsq : sortPairs ((List.range g.nodeCount).map (fun p => (score g p, p))) with
  | nil =>
    rw [hsq] at hlen
    simp at hlen
    omega
  | cons q qs =>
    obtain ⟨s, pos⟩ := q
    have hstep : sweepGo g ((s, pos) :: qs) (fun _ => true) [] =
        sweepGo g qs
          (markUnselected (markUnselected (fun _ => true) (inNeighbors g pos))
            (outNeighbors g pos)) [pos] := by
      rw [sweepGo]
      simp
    rw [hstep]
    intro hnil
    have hmem := sweepGo_acc_mem g qs
      (markUnselected (markUnselected (fun _ => true) (inNeighbors g pos))
        (outNeighbors g pos)) [pos] pos (by simp)
    rw [hnil] at hmem
    cases hmem

theorem reduce_ne_nil (s : List ℕ) (g : Graph) (hs : s ≠ []) : reduce s g ≠ [] := by
  intro hnil
  have hlen := reduce_length s g
  rw [hnil] at hlen
  have h1 : 1 ≤ s.length := List.length_pos.mpr hs
  simp only [List.length_nil] at hlen
  by_cases h4 : s.length < 4
  · rw [if_pos h4] at hlen
    omega
  · rw [if_neg h4] at hlen
    have : 4 ≤ s.length := by omega
    have : 1 ≤ s.length / 4 := Nat.one_le_div_iff (by omega) |>.mpr this
    omega

theorem length_filter_lt (p : α → Bool) (l : List α) (x : α) (hx : x ∈ l)
    (hpx : p x = false) : (l.filter p).length < l.length := by
  induction l with
  | nil => cases hx
  | cons a as ih =>
    rcases List.mem_cons.mp hx with rfl | hx'
    · rw [List.filter_cons]
      rw [hpx]
      simp only [Bool.false_eq_true, if_false, List.length_cons]
      exact Nat.lt_succ_of_le (List.length_filter_le p as)
    · rw [List.filter_cons]
      by_cases hpa : p a = true
      · rw [hpa]
        simp only [if_true, List.length_cons]
        exact Nat.succ_lt_succ (ih hx')
      · have hpa' : p a = false := by revert hpa; cases p a <;> simp
        rw [hpa']
        simp only [Bool.false_eq_true, if_false, List.length_cons]
        exact Nat.lt_succ_of_lt (ih hx')

theorem contractStep_decreases (sc : Graph → List ℕ → List (ℕ × ℕ)) (g : Graph)
    (hg : 1 ≤ g.nodeCount) : (contractStep sc g).nodeCount < g.nodeCount := by
  have hne := reduce_ne_nil (independentSet g) g (independentSet_ne_nil g hg)
  obtain ⟨p0, hp0⟩ : ∃ x, x ∈ reduce (independentSet g) g := by
    cases h : reduce (independentSet g) g with
    | nil => exact absurd h hne
    | cons a as => exact ⟨a, List.mem_cons_self a as⟩
  have hp0r : p0 ∈ List.range g.nodeCount :=
    independentSet_subset_range g p0 (reduce_subset _ g p0 hp0)
  show (keepNodes g (reduce (independentSet g) g)).length < g.nodeCount
  unfold keepNodes
  have hlt := length_filter_lt (fun p => decide (p ∉ reduce (independentSet g) g))
    (List.range g.nodeCount) p0 hp0r (by simpa using hp0)
  rw [List.length_range] at hlt
  exact hlt

theorem percentOf_zero (origCount : ℕ) : percentOf origCount 0 = 0 := by
  unfold percentOf qRound
  norm_num

theorem contractLoop_exits (sc : Graph → List ℕ → List (ℕ × ℕ)) (origCount : ℕ)
    (rest : ℚ) (hrest : 0 < rest) :
    ∀ fuel (g : Graph), g.nodeCount < fuel →
      ∃ out, contractLoop sc origCount rest fuel g = some out := by
  intro fuel
  induction fuel with
  | zero =>
    intro g h
    exact absurd h (by omega)
  | succ n ih =>
    intro g hg
    rw [contractLoop]
    by_cases hpct : percentOf origCount g.nodeCount > rest
    · rw [if_pos hpct]
      apply ih
      have h1 : 1 ≤ g.nodeCount := by
        by_contra h0
        have hz : g.nodeCount = 0 := by omega
        rw [hz, percentOf_zero] at hpct
        exact absurd hrest (by linarith)
      have := contractStep_decreases sc g h1
      omega
    · rw [if_neg hpct]
      exact ⟨g, rfl⟩

/-- C10: for every non-empty graph the reduced independent set is
non-empty, one contraction step strictly decreases the node count, and
the `contractCompletely` loop exits within `nodeCount` iterations for
every `rest > 0` — regardless of the edges and shortcuts (`sc`) the
worker pipeline produces. -/
theorem c10_termination (sc : Graph → List ℕ → List (ℕ × ℕ)) (g : Graph) (rest : ℚ)
    (hg : 1 ≤ g.nodeCount) (hrest : 0 < rest) :
    reduce (independentSet g) g ≠ [] ∧
    (contractStep sc g).nodeCount < g.nodeCount ∧
    ∃ out, contractCompletelyFuel sc g rest g.nodeCount = some out := by
  refine ⟨reduce_ne_nil _ g (independentSet_ne_nil g hg),
          contractStep_decreases sc g hg, ?_⟩
  unfold contractCompletelyFuel
  exact contractLoop_exits sc g.nodeCount rest hrest g.nodeCount (contractStep sc g)
    (contractStep_decreases sc g hg)

/-- A two-node graph for the C10 witness. -/
def graphC10 : Graph := ⟨2, [(0, 1)]⟩

/-- Witness for C10 at a concrete graph, `rest = 1`, and the empty
shortcut producer. -/
theorem c10_termination_witness :
    reduce (independentSet graphC10) graphC10 ≠ [] ∧
    (contractStep (fun _ _ => []) graphC10).nodeCount < graphC10.nodeCount ∧
    ∃ out, contractCompletelyFuel (fun _ _ => []) graphC10 1
      graphC10.nodeCount = some out :=
  c10_termination (fun _ _ => []) graphC10 1 (by decide) (by norm_num)

end MCC
